import Mathlib

/-!
Verification of the Black-Scholes option pricer in `src/backend/main.py`
(`_black_scholes` and the `black_scholes` endpoint), embedded shallowly
over the reals.  `norm_pdf` / `norm_cdf` model `statistics.NormalDist().pdf`
and `.cdf` (standard normal density and cumulative distribution).
-/

open MeasureTheory Set

namespace BSModel

/-- Standard normal density, modelling `norm.pdf` for `NormalDist(0,1)`:
`φ(x) = e^(-x²/2) / √(2π)`. -/
noncomputable def norm_pdf (x : ℝ) : ℝ := Real.exp (-x ^ 2 / 2) / Real.sqrt (2 * Real.pi)

/-- Standard normal cumulative distribution, modelling `norm.cdf`:
`N(x) = ∫_{-∞}^x φ`. -/
noncomputable def norm_cdf (x : ℝ) : ℝ := ∫ t in Iic x, norm_pdf t

/-- The response record of the pricing endpoint, modelling `OptionResponse`
in `src/backend/main.py` (fields `price, delta, gamma, vega, theta, rho`). -/
structure OptionResponse where
  price : ℝ
  delta : ℝ
  gamma : ℝ
  vega : ℝ
  theta : ℝ
  rho : ℝ

/-- Shallow embedding of `_black_scholes(S, K, T, r, sigma, is_call)` from
`src/backend/main.py`, with Python floats read as exact reals. -/
noncomputable def _black_scholes (S K T r sigma : ℝ) (is_call : Bool) : OptionResponse :=
  if T ≤ 0 ∨ sigma ≤ 0 ∨ S ≤ 0 ∨ K ≤ 0 then
    { price := 0.0, delta := 0.0, gamma := 0.0, vega := 0.0, theta := 0.0, rho := 0.0 }
  else
    let d1 := (Real.log (S / K) + (r + 0.5 * sigma ^ 2) * T) / (sigma * Real.sqrt T)
    let d2 := d1 - sigma * Real.sqrt T
    let gamma := norm_pdf d1 / (S * sigma * Real.sqrt T)
    let vega := S * norm_pdf d1 * Real.sqrt T / 100.0
    if is_call then
      { price := S * norm_cdf d1 - K * Real.exp (-r * T) * norm_cdf d2
        delta := norm_cdf d1
        gamma := gamma
        vega := vega
        theta := (-(S * norm_pdf d1 * sigma) / (2 * Real.sqrt T)
          - r * K * Real.exp (-r * T) * norm_cdf d2) / 365.0
        rho := K * T * Real.exp (-r * T) * norm_cdf d2 / 100.0 }
    else
      { price := K * Real.exp (-r * T) * norm_cdf (-d2) - S * norm_cdf (-d1)
        delta := -norm_cdf (-d1)
        gamma := gamma
        vega := vega
        theta := (-(S * norm_pdf d1 * sigma) / (2 * Real.sqrt T)
          + r * K * Real.exp (-r * T) * norm_cdf (-d2)) / 365.0
        rho := -K * T * Real.exp (-r * T) * norm_cdf (-d2) / 100.0 }

/-- The request record of the pricing endpoint, modelling `OptionRequest`
in `src/backend/main.py`. -/
structure OptionRequest where
  S : ℝ
  K : ℝ
  T : ℝ
  r : ℝ
  sigma : ℝ
  type : String

/-- Python's `str.lower()` as used by the endpoint (ASCII case folding,
which is all the comparison against the ASCII literal `'call'` exercises). -/
def str_lower (s : String) : String := ⟨s.data.map Char.toLower⟩

/-- Shallow embedding of the `black_scholes(req)` endpoint handler:
`is_call = req.type.lower() == 'call'`, then delegate to the core. -/
noncomputable def black_scholes (req : OptionRequest) : OptionResponse :=
  let is_call := str_lower req.type == "call"
  _black_scholes req.S req.K req.T req.r req.sigma is_call

/-- `d1` of the Black-Scholes formula, as computed in `_black_scholes`. -/
noncomputable def d1 (S K T r sigma : ℝ) : ℝ :=
  (Real.log (S / K) + (r + 0.5 * sigma ^ 2) * T) / (sigma * Real.sqrt T)

/-- `d2 = d1 - sigma*sqrt(T)`, as computed in `_black_scholes`. -/
noncomputable def d2 (S K T r sigma : ℝ) : ℝ :=
  d1 S K T r sigma - sigma * Real.sqrt T

/-- `Option`-valued variant of the partial operations `_black_scholes` uses:
`math.log` raises on a nonpositive argument. -/
noncomputable def safe_log (x : ℝ) : Option ℝ :=
  if 0 < x then some (Real.log x) else none

/-- `math.sqrt` raises on a negative argument. -/
noncomputable def safe_sqrt (x : ℝ) : Option ℝ :=
  if 0 ≤ x then some (Real.sqrt x) else none

/-- Python float division raises `ZeroDivisionError` on a zero divisor. -/
noncomputable def safe_div (x y : ℝ) : Option ℝ :=
  if y = 0 then none else some (x / y)

/-- `_black_scholes` with every fallible Python operation (log of a
nonpositive number, sqrt of a negative number, division by zero) made
explicitly partial, in the evaluation order of the source.  `none` models a
raised exception. -/
noncomputable def _black_scholes_checked (S K T r sigma : ℝ) (is_call : Bool) :
    Option OptionResponse :=
  if T ≤ 0 ∨ sigma ≤ 0 ∨ S ≤ 0 ∨ K ≤ 0 then
    some { price := 0.0, delta := 0.0, gamma := 0.0, vega := 0.0, theta := 0.0, rho := 0.0 }
  else do
    let ratio ← safe_div S K
    let lsk ← safe_log ratio
    let sT ← safe_sqrt T
    let d1 ← safe_div (lsk + (r + 0.5 * sigma ^ 2) * T) (sigma * sT)
    let d2 := d1 - sigma * sT
    let gamma ← safe_div (norm_pdf d1) (S * sigma * sT)
    let vega ← safe_div (S * norm_pdf d1 * sT) 100.0
    if is_call then do
      let thalf ← safe_div (-(S * norm_pdf d1 * sigma)) (2 * sT)
      let theta ← safe_div (thalf - r * K * Real.exp (-r * T) * norm_cdf d2) 365.0
      let rho ← safe_div (K * T * Real.exp (-r * T) * norm_cdf d2) 100.0
      pure { price := S * norm_cdf d1 - K * Real.exp (-r * T) * norm_cdf d2
             delta := norm_cdf d1
             gamma := gamma, vega := vega, theta := theta, rho := rho }
    else do
      let thalf ← safe_div (-(S * norm_pdf d1 * sigma)) (2 * sT)
      let theta ← safe_div (thalf + r * K * Real.exp (-r * T) * norm_cdf (-d2)) 365.0
      let rho ← safe_div (-K * T * Real.exp (-r * T) * norm_cdf (-d2)) 100.0
      pure { price := K * Real.exp (-r * T) * norm_cdf (-d2) - S * norm_cdf (-d1)
             delta := -norm_cdf (-d1)
             gamma := gamma, vega := vega, theta := theta, rho := rho }

/-- The call branch price as a function of its inputs (the `price` field of
the call branch of `_black_scholes`). -/
noncomputable def call_price (S K T r sigma : ℝ) : ℝ :=
  S * norm_cdf (d1 S K T r sigma) - K * Real.exp (-r * T) * norm_cdf (d2 S K T r sigma)

/-- The put branch price as a function of its inputs (the `price` field of
the put branch of `_black_scholes`). -/
noncomputable def put_price (S K T r sigma : ℝ) : ℝ :=
  K * Real.exp (-r * T) * norm_cdf (-(d2 S K T r sigma)) - S * norm_cdf (-(d1 S K T r sigma))

theorem sqrt_two_pi_pos : 0 < Real.sqrt (2 * Real.pi) :=
  Real.sqrt_pos.mpr (by positivity)

theorem norm_pdf_pos (x : ℝ) : 0 < norm_pdf x :=
  div_pos (Real.exp_pos _) sqrt_two_pi_pos

theorem norm_pdf_neg (x : ℝ) : norm_pdf (-x) = norm_pdf x := by
  simp [norm_pdf, neg_sq]

theorem continuous_norm_pdf : Continuous norm_pdf := by
  unfold norm_pdf
  fun_prop

theorem norm_pdf_eq (x : ℝ) :
    norm_pdf x = Real.exp (-(1 / 2) * x ^ 2) / Real.sqrt (2 * Real.pi) := by
  rw [norm_pdf, show -x ^ 2 / 2 = -(1 / 2) * x ^ 2 by ring]

theorem integrable_norm_pdf : Integrable norm_pdf := by
  have h : Integrable (fun x : ℝ => Real.exp (-(1 / 2) * x ^ 2)) :=
    integrable_exp_neg_mul_sq (by norm_num)
  have := h.div_const (Real.sqrt (2 * Real.pi))
  refine this.congr ?_
  filter_upwards with x
  rw [norm_pdf_eq]

theorem integral_norm_pdf : ∫ x, norm_pdf x = 1 := by
  have h : ∫ x : ℝ, Real.exp (-(1 / 2) * x ^ 2) = Real.sqrt (Real.pi / (1 / 2)) :=
    integral_gaussian (1 / 2)
  have hx : ∀ x : ℝ, norm_pdf x = Real.exp (-(1 / 2) * x ^ 2) / Real.sqrt (2 * Real.pi) :=
    norm_pdf_eq
  calc ∫ x, norm_pdf x
      = ∫ x : ℝ, Real.exp (-(1 / 2) * x ^ 2) / Real.sqrt (2 * Real.pi) := by
        exact integral_congr_ae (Filter.Eventually.of_forall hx)
    _ = (∫ x : ℝ, Real.exp (-(1 / 2) * x ^ 2)) / Real.sqrt (2 * Real.pi) := integral_div _ _
    _ = Real.sqrt (Real.pi / (1 / 2)) / Real.sqrt (2 * Real.pi) := by rw [h]
    _ = 1 := by
        rw [show Real.pi / (1 / 2) = 2 * Real.pi by ring]
        exact div_self (ne_of_gt sqrt_two_pi_pos)

theorem norm_cdf_neg_eq (x : ℝ) : norm_cdf (-x) = ∫ t in Ioi x, norm_pdf t := by
  have h1 : (∫ t in Iic (-x), norm_pdf (-t)) = ∫ t in Ioi x, norm_pdf t := by
    have := integral_comp_neg_Iic (-x) norm_pdf
    rwa [neg_neg] at this
  have h2 : (∫ t in Iic (-x), norm_pdf (-t)) = ∫ t in Iic (-x), norm_pdf t :=
    setIntegral_congr_fun measurableSet_Iic (fun t _ => norm_pdf_neg t)
  rw [norm_cdf, ← h2, h1]

theorem norm_cdf_add_neg (x : ℝ) : norm_cdf x + norm_cdf (-x) = 1 := by
  rw [norm_cdf, norm_cdf_neg_eq]
  rw [intervalIntegral.integral_Iic_add_Ioi integrable_norm_pdf.integrableOn
    integrable_norm_pdf.integrableOn]
  exact integral_norm_pdf

theorem norm_cdf_pos (x : ℝ) : 0 < norm_cdf x := by
  rw [norm_cdf]
  rw [setIntegral_pos_iff_support_of_nonneg_ae
    (Filter.Eventually.of_forall fun t => (norm_pdf_pos t).le)
    integrable_norm_pdf.integrableOn]
  have hsupp : Function.support norm_pdf = Set.univ :=
    Set.eq_univ_of_forall fun t => Function.mem_support.mpr (norm_pdf_pos t).ne'
  rw [hsupp, Set.univ_inter, Real.volume_Iic]
  exact ENNReal.zero_lt_top

theorem norm_cdf_lt_one (x : ℝ) : norm_cdf x < 1 := by
  have h := norm_cdf_add_neg x
  have := norm_cdf_pos (-x)
  linarith

theorem hasDerivAt_norm_cdf (x : ℝ) : HasDerivAt norm_cdf (norm_pdf x) x := by
  have heq : ∀ y : ℝ, norm_cdf y = norm_cdf 0 + ∫ t in (0:ℝ)..y, norm_pdf t := by
    intro y
    have := intervalIntegral.integral_Iic_sub_Iic (μ := volume) (f := norm_pdf)
      integrable_norm_pdf.integrableOn integrable_norm_pdf.integrableOn (a := 0) (b := y)
    rw [norm_cdf, norm_cdf]
    linarith [this]
  have hder : HasDerivAt (fun y : ℝ => norm_cdf 0 + ∫ t in (0:ℝ)..y, norm_pdf t)
      (norm_pdf x) x := by
    refine HasDerivAt.const_add _ ?_
    exact intervalIntegral.integral_hasDerivAt_right
      integrable_norm_pdf.intervalIntegrable
      continuous_norm_pdf.aestronglyMeasurable.stronglyMeasurableAtFilter
      continuous_norm_pdf.continuousAt
  exact hder.congr_of_eventuallyEq (Filter.Eventually.of_forall fun y => heq y)

theorem norm_cdf_neg_val (x : ℝ) : norm_cdf (-x) = 1 - norm_cdf x := by
  have := norm_cdf_add_neg x
  linarith

theorem bs_guard_neg {S K T sigma : ℝ}
    (hS : 0 < S) (hK : 0 < K) (hT : 0 < T) (hsig : 0 < sigma) :
    ¬(T ≤ 0 ∨ sigma ≤ 0 ∨ S ≤ 0 ∨ K ≤ 0) := by
  push_neg
  exact ⟨hT, hsig, hS, hK⟩

theorem bs_call_fields (S K T r sigma : ℝ)
    (h : ¬(T ≤ 0 ∨ sigma ≤ 0 ∨ S ≤ 0 ∨ K ≤ 0)) :
    _black_scholes S K T r sigma true =
      { price := S * norm_cdf (d1 S K T r sigma)
          - K * Real.exp (-r * T) * norm_cdf (d2 S K T r sigma)
        delta := norm_cdf (d1 S K T r sigma)
        gamma := norm_pdf (d1 S K T r sigma) / (S * sigma * Real.sqrt T)
        vega := S * norm_pdf (d1 S K T r sigma) * Real.sqrt T / 100.0
        theta := (-(S * norm_pdf (d1 S K T r sigma) * sigma) / (2 * Real.sqrt T)
          - r * K * Real.exp (-r * T) * norm_cdf (d2 S K T r sigma)) / 365.0
        rho := K * T * Real.exp (-r * T) * norm_cdf (d2 S K T r sigma) / 100.0 } := by
  simp only [_black_scholes, if_neg h, if_true]
  rfl

theorem bs_put_fields (S K T r sigma : ℝ)
    (h : ¬(T ≤ 0 ∨ sigma ≤ 0 ∨ S ≤ 0 ∨ K ≤ 0)) :
    _black_scholes S K T r sigma false =
      { price := K * Real.exp (-r * T) * norm_cdf (-(d2 S K T r sigma))
          - S * norm_cdf (-(d1 S K T r sigma))
        delta := -norm_cdf (-(d1 S K T r sigma))
        gamma := norm_pdf (d1 S K T r sigma) / (S * sigma * Real.sqrt T)
        vega := S * norm_pdf (d1 S K T r sigma) * Real.sqrt T / 100.0
        theta := (-(S * norm_pdf (d1 S K T r sigma) * sigma) / (2 * Real.sqrt T)
          + r * K * Real.exp (-r * T) * norm_cdf (-(d2 S K T r sigma))) / 365.0
        rho := -K * T * Real.exp (-r * T) * norm_cdf (-(d2 S K T r sigma)) / 100.0 } := by
  simp only [_black_scholes, if_neg h, Bool.false_eq_true, if_false]
  rfl

end BSModel

namespace BSClaims

open BSModel

/-- Claim C2: whenever `T <= 0` or `sigma <= 0` or `S <= 0` or `K <= 0`, the
`_black_scholes` function returns all six outputs equal to `0.0`, for any `r`
and either value of the call/put flag. -/
theorem claim_C2_degenerate_zero (S K T r sigma : ℝ) (is_call : Bool)
    (h : T ≤ 0 ∨ sigma ≤ 0 ∨ S ≤ 0 ∨ K ≤ 0) :
    _black_scholes S K T r sigma is_call =
      { price := 0.0, delta := 0.0, gamma := 0.0, vega := 0.0, theta := 0.0, rho := 0.0 } := by
  simp only [_black_scholes, if_pos h]

/-- Witness for C2 at the concrete degenerate input `T = 0`. -/
theorem claim_C2_witness :
    _black_scholes 100 100 0 0.05 0.2 true =
      { price := 0.0, delta := 0.0, gamma := 0.0, vega := 0.0, theta := 0.0, rho := 0.0 } :=
  claim_C2_degenerate_zero 100 100 0 0.05 0.2 true (Or.inl le_rfl)

/-- Claim C7: for every input (degenerate or not), the `gamma` and `vega`
outputs of `_black_scholes` are identical between the call and put branches. -/
theorem claim_C7_gamma_vega_shared (S K T r sigma : ℝ) :
    (_black_scholes S K T r sigma true).gamma = (_black_scholes S K T r sigma false).gamma ∧
    (_black_scholes S K T r sigma true).vega = (_black_scholes S K T r sigma false).vega := by
  by_cases h : T ≤ 0 ∨ sigma ≤ 0 ∨ S ≤ 0 ∨ K ≤ 0
  · simp [_black_scholes, if_pos h]
  · rw [bs_call_fields S K T r sigma h, bs_put_fields S K T r sigma h]
    exact ⟨rfl, rfl⟩

/-- Claim C5: put-call parity.  For non-degenerate inputs, the call price minus
the put price from the same `(S, K, T, r, sigma)` equals `S - K·e^(-rT)`,
exactly, under the exact-real semantics of this embedding. -/
theorem claim_C5_put_call_parity (S K T r sigma : ℝ)
    (hS : 0 < S) (hK : 0 < K) (hT : 0 < T) (hsig : 0 < sigma) :
    (_black_scholes S K T r sigma true).price - (_black_scholes S K T r sigma false).price
      = S - K * Real.exp (-(r * T)) := by
  have h := bs_guard_neg hS hK hT hsig
  rw [bs_call_fields S K T r sigma h, bs_put_fields S K T r sigma h]
  dsimp only
  rw [norm_cdf_neg_val (d1 S K T r sigma), norm_cdf_neg_val (d2 S K T r sigma), neg_mul]
  ring

/-- Witness for C5 at `S=100, K=100, T=1, r=0.05, sigma=0.2`. -/
theorem claim_C5_witness :
    (_black_scholes 100 100 1 0.05 0.2 true).price
      - (_black_scholes 100 100 1 0.05 0.2 false).price
      = 100 - 100 * Real.exp (-(0.05 * 1)) :=
  claim_C5_put_call_parity 100 100 1 0.05 0.2 (by norm_num) (by norm_num) (by norm_num)
    (by norm_num)

/-- Claim C6: for non-degenerate inputs the call delta minus the put delta from
identical `(S, K, T, r, sigma)` equals `1`, exactly, under exact-real
semantics. -/
theorem claim_C6_delta_parity (S K T r sigma : ℝ)
    (hS : 0 < S) (hK : 0 < K) (hT : 0 < T) (hsig : 0 < sigma) :
    (_black_scholes S K T r sigma true).delta - (_black_scholes S K T r sigma false).delta
      = 1 := by
  have h := bs_guard_neg hS hK hT hsig
  rw [bs_call_fields S K T r sigma h, bs_put_fields S K T r sigma h]
  dsimp only
  rw [norm_cdf_neg_val (d1 S K T r sigma)]
  ring

/-- Witness for C6 at `S=100, K=100, T=1, r=0.05, sigma=0.2`. -/
theorem claim_C6_witness :
    (_black_scholes 100 100 1 0.05 0.2 true).delta
      - (_black_scholes 100 100 1 0.05 0.2 false).delta = 1 :=
  claim_C6_delta_parity 100 100 1 0.05 0.2 (by norm_num) (by norm_num) (by norm_num)
    (by norm_num)

end BSClaims

namespace BSClaims

open BSModel

/-- Claim C1: for `S, K, T, sigma > 0` the two branches of `_black_scholes`
return exactly the closed-form Black-Scholes-Merton values, with
`d1 = (ln(S/K) + (r + 0.5*sigma^2)*T)/(sigma*sqrt(T))`, `d2 = d1 - sigma*sqrt(T)`,
the call branch giving `price = S*N(d1) - K*e^(-rT)*N(d2)`, `delta = N(d1)`,
`rho = K*T*e^(-rT)*N(d2)/100`,
`theta = (-(S*phi(d1)*sigma)/(2*sqrt(T)) - r*K*e^(-rT)*N(d2))/365`, the put
branch giving `price = K*e^(-rT)*N(-d2) - S*N(-d1)`, `delta = -N(-d1)`,
`rho = -K*T*e^(-rT)*N(-d2)/100`,
`theta = (-(S*phi(d1)*sigma)/(2*sqrt(T)) + r*K*e^(-rT)*N(-d2))/365`, and both
branches sharing `gamma = phi(d1)/(S*sigma*sqrt(T))` and
`vega = S*phi(d1)*sqrt(T)/100`, with the `/100` and `/365` scalings exact. -/
theorem claim_C1_closed_form (S K T r sigma : ℝ)
    (hS : 0 < S) (hK : 0 < K) (hT : 0 < T) (hsig : 0 < sigma) :
    _black_scholes S K T r sigma true =
      { price := S * norm_cdf (d1 S K T r sigma)
          - K * Real.exp (-(r * T)) * norm_cdf (d2 S K T r sigma)
        delta := norm_cdf (d1 S K T r sigma)
        gamma := norm_pdf (d1 S K T r sigma) / (S * sigma * Real.sqrt T)
        vega := S * norm_pdf (d1 S K T r sigma) * Real.sqrt T / 100
        theta := (-(S * norm_pdf (d1 S K T r sigma) * sigma) / (2 * Real.sqrt T)
          - r * K * Real.exp (-(r * T)) * norm_cdf (d2 S K T r sigma)) / 365
        rho := K * T * Real.exp (-(r * T)) * norm_cdf (d2 S K T r sigma) / 100 } ∧
    _black_scholes S K T r sigma false =
      { price := K * Real.exp (-(r * T)) * norm_cdf (-(d2 S K T r sigma))
          - S * norm_cdf (-(d1 S K T r sigma))
        delta := -norm_cdf (-(d1 S K T r sigma))
        gamma := norm_pdf (d1 S K T r sigma) / (S * sigma * Real.sqrt T)
        vega := S * norm_pdf (d1 S K T r sigma) * Real.sqrt T / 100
        theta := (-(S * norm_pdf (d1 S K T r sigma) * sigma) / (2 * Real.sqrt T)
          + r * K * Real.exp (-(r * T)) * norm_cdf (-(d2 S K T r sigma))) / 365
        rho := -(K * T * Real.exp (-(r * T)) * norm_cdf (-(d2 S K T r sigma)) / 100) } := by
  have h := bs_guard_neg hS hK hT hsig
  rw [bs_call_fields S K T r sigma h, bs_put_fields S K T r sigma h]
  constructor
  · simp only [OptionResponse.mk.injEq]
    refine ⟨?_, ?_, ?_, ?_, ?_, ?_⟩ <;> ring_nf
  · simp only [OptionResponse.mk.injEq]
    refine ⟨?_, ?_, ?_, ?_, ?_, ?_⟩ <;> ring_nf

/-- Witness for C1: the call delta at `S=100, K=100, T=1, r=0.05, sigma=0.2`
equals `N(d1)` at this input. -/
theorem claim_C1_witness :
    (_black_scholes 100 100 1 0.05 0.2 true).delta = norm_cdf (d1 100 100 1 0.05 0.2) := by
  have h := (claim_C1_closed_form 100 100 1 0.05 0.2 (by norm_num) (by norm_num) (by norm_num)
    (by norm_num)).1
  rw [h]

/-- Claim C4: the endpoint's type dispatch is exactly binary: the call branch
is used iff the lowercased `type` equals `"call"`; any other string (put,
mixed-case variants of other words, garbage) selects the put branch;
`type="CALL"` and `type="call"` give identical output; no value is rejected. -/
theorem claim_C4_type_dispatch :
    (∀ req : OptionRequest, str_lower req.type = "call" →
        black_scholes req = _black_scholes req.S req.K req.T req.r req.sigma true) ∧
    (∀ req : OptionRequest, str_lower req.type ≠ "call" →
        black_scholes req = _black_scholes req.S req.K req.T req.r req.sigma false) ∧
    (∀ S K T r sigma : ℝ,
        black_scholes ⟨S, K, T, r, sigma, "CALL"⟩ = black_scholes ⟨S, K, T, r, sigma, "call"⟩) ∧
    (∀ S K T r sigma : ℝ,
        black_scholes ⟨S, K, T, r, sigma, "anything-else"⟩
          = _black_scholes S K T r sigma false) := by
  refine ⟨?_, ?_, ?_, ?_⟩
  · intro req h
    simp [black_scholes, h]
  · intro req h
    simp only [black_scholes]
    rw [beq_eq_false_iff_ne.mpr h]
  · intro S K T r sigma
    simp only [black_scholes]
    rw [show (str_lower "CALL" == "call") = true from by decide,
      show (str_lower "call" == "call") = true from by decide]
  · intro S K T r sigma
    simp [black_scholes, show (str_lower "anything-else" == "call") = false by decide]

/-- Witness for C4: `type="CALL"` and `type="call"` yield identical output at a
concrete input. -/
theorem claim_C4_witness :
    black_scholes ⟨100, 100, 1, 0.05, 0.2, "CALL"⟩
      = black_scholes ⟨100, 100, 1, 0.05, 0.2, "call"⟩ :=
  claim_C4_type_dispatch.2.2.1 100 100 1 0.05 0.2

end BSClaims

namespace BSClaims

open BSModel

/-- Claim C3: `_black_scholes` is total and never raises: the variant in which
every Python operation that can raise (log of a nonpositive argument, sqrt of
a negative argument, division by zero) is explicitly partial always returns
`some` of the total function's result — the degenerate-input guard makes every
log/sqrt/division argument safe, for all real inputs and both flag values. -/
theorem claim_C3_never_raises (S K T r sigma : ℝ) (is_call : Bool) :
    _black_scholes_checked S K T r sigma is_call
      = some (_black_scholes S K T r sigma is_call) := by
  by_cases h : T ≤ 0 ∨ sigma ≤ 0 ∨ S ≤ 0 ∨ K ≤ 0
  · simp only [_black_scholes_checked, _black_scholes, if_pos h]
  · push_neg at h
    obtain ⟨hT, hsig, hS, hK⟩ := h
    have h' := bs_guard_neg hS hK hT hsig
    have hsT : 0 < Real.sqrt T := Real.sqrt_pos.mpr hT
    simp only [_black_scholes_checked, _black_scholes, if_neg h', safe_div, safe_log, safe_sqrt,
      if_neg hK.ne', if_pos (div_pos hS hK), if_pos hT.le,
      if_neg (mul_pos hsig hsT).ne', if_neg (mul_pos (mul_pos hS hsig) hsT).ne',
      if_neg (mul_pos two_pos hsT).ne',
      if_neg (show (100.0:ℝ) ≠ 0 by norm_num), if_neg (show (365.0:ℝ) ≠ 0 by norm_num),
      Option.pure_def, Option.bind_eq_bind, Option.some_bind]
    cases is_call <;> rfl

/-- Claim C10: strict sign and range bounds on the Greeks for non-degenerate
inputs: call delta lies strictly in `(0,1)`, put delta strictly in `(-1,0)`,
and gamma and vega are strictly positive for both branches. -/
theorem claim_C10_greek_bounds (S K T r sigma : ℝ)
    (hS : 0 < S) (hK : 0 < K) (hT : 0 < T) (hsig : 0 < sigma) :
    (0 < (_black_scholes S K T r sigma true).delta
      ∧ (_black_scholes S K T r sigma true).delta < 1) ∧
    (-1 < (_black_scholes S K T r sigma false).delta
      ∧ (_black_scholes S K T r sigma false).delta < 0) ∧
    0 < (_black_scholes S K T r sigma true).gamma ∧
    0 < (_black_scholes S K T r sigma true).vega ∧
    0 < (_black_scholes S K T r sigma false).gamma ∧
    0 < (_black_scholes S K T r sigma false).vega := by
  have h := bs_guard_neg hS hK hT hsig
  rw [bs_call_fields S K T r sigma h, bs_put_fields S K T r sigma h]
  dsimp only
  have hc1 := norm_cdf_pos (d1 S K T r sigma)
  have hc2 := norm_cdf_lt_one (d1 S K T r sigma)
  have hc3 := norm_cdf_pos (-(d1 S K T r sigma))
  have hc4 := norm_cdf_lt_one (-(d1 S K T r sigma))
  have hp := norm_pdf_pos (d1 S K T r sigma)
  have hsT : 0 < Real.sqrt T := Real.sqrt_pos.mpr hT
  have hg : 0 < norm_pdf (d1 S K T r sigma) / (S * sigma * Real.sqrt T) :=
    div_pos hp (mul_pos (mul_pos hS hsig) hsT)
  have hv : 0 < S * norm_pdf (d1 S K T r sigma) * Real.sqrt T / 100.0 :=
    div_pos (mul_pos (mul_pos hS hp) hsT) (by norm_num)
  exact ⟨⟨hc1, hc2⟩, ⟨by linarith, by linarith⟩, hg, hv, hg, hv⟩

/-- Witness for C10 at `S=100, K=100, T=1, r=0.05, sigma=0.2`: the call delta
is strictly between `0` and `1` there. -/
theorem claim_C10_witness :
    0 < (_black_scholes 100 100 1 0.05 0.2 true).delta
      ∧ (_black_scholes 100 100 1 0.05 0.2 true).delta < 1 :=
  (claim_C10_greek_bounds 100 100 1 0.05 0.2 (by norm_num) (by norm_num) (by norm_num)
    (by norm_num)).1

end BSClaims

namespace BSModel

theorem pdf_d2_identity (S K T r sigma : ℝ)
    (hS : 0 < S) (hK : 0 < K) (hT : 0 < T) (hsig : 0 < sigma) :
    K * Real.exp (-r * T) * norm_pdf (d2 S K T r sigma) = S * norm_pdf (d1 S K T r sigma) := by
  have hsT : 0 < Real.sqrt T := Real.sqrt_pos.mpr hT
  have hden : sigma * Real.sqrt T ≠ 0 := (mul_pos hsig hsT).ne'
  have hd1m : d1 S K T r sigma * (sigma * Real.sqrt T)
      = Real.log (S / K) + (r + 0.5 * sigma ^ 2) * T := by
    rw [d1]
    exact div_mul_cancel₀ _ hden
  have hs2 : (sigma * Real.sqrt T) ^ 2 = sigma ^ 2 * T := by
    rw [mul_pow, Real.sq_sqrt hT.le]
  have key : Real.exp (-(d2 S K T r sigma) ^ 2 / 2)
      = Real.exp (-(d1 S K T r sigma) ^ 2 / 2) * (S / K * Real.exp (r * T)) := by
    rw [← Real.exp_log (div_pos hS hK), ← Real.exp_add, ← Real.exp_add]
    congr 1
    rw [d2]
    linear_combination hd1m - (1 / 2) * hs2
  simp only [norm_pdf]
  rw [key, neg_mul, Real.exp_neg]
  field_simp
  ring

end BSModel

namespace BSModel

theorem call_price_hasDerivAt (S K T r : ℝ) (hS : 0 < S) (hK : 0 < K) (hT : 0 < T)
    {sigma : ℝ} (hsig : 0 < sigma) :
    HasDerivAt (fun s => call_price S K T r s)
      (S * norm_pdf (d1 S K T r sigma) * Real.sqrt T) sigma := by
  have hsT : 0 < Real.sqrt T := Real.sqrt_pos.mpr hT
  have hden : sigma * Real.sqrt T ≠ 0 := (mul_pos hsig hsT).ne'
  have hpow : HasDerivAt (fun s : ℝ => s ^ 2) (2 * sigma) sigma := by
    simpa using hasDerivAt_pow 2 sigma
  have hnum : HasDerivAt (fun s : ℝ => Real.log (S / K) + (r + 0.5 * s ^ 2) * T)
      (0.5 * (2 * sigma) * T) sigma :=
    (((hpow.const_mul 0.5).const_add r).mul_const T).const_add (Real.log (S / K))
  have hdenf : HasDerivAt (fun s : ℝ => s * Real.sqrt T) (Real.sqrt T) sigma := by
    simpa using (hasDerivAt_id sigma).mul_const (Real.sqrt T)
  obtain ⟨Dv, hd1'⟩ : ∃ Dv, HasDerivAt (fun s => d1 S K T r s) Dv sigma :=
    ⟨_, by simpa only [d1] using hnum.div hdenf hden⟩
  have hd2' : HasDerivAt (fun s => d2 S K T r s) (Dv - Real.sqrt T) sigma := by
    simpa only [d2] using hd1'.sub hdenf
  have hN1 : HasDerivAt (fun s => norm_cdf (d1 S K T r s))
      (norm_pdf (d1 S K T r sigma) * Dv) sigma := by
    simpa [Function.comp] using (hasDerivAt_norm_cdf (d1 S K T r sigma)).comp sigma hd1'
  have hN2 : HasDerivAt (fun s => norm_cdf (d2 S K T r s))
      (norm_pdf (d2 S K T r sigma) * (Dv - Real.sqrt T)) sigma := by
    simpa [Function.comp] using (hasDerivAt_norm_cdf (d2 S K T r sigma)).comp sigma hd2'
  have hcp : HasDerivAt (fun s => call_price S K T r s)
      (S * (norm_pdf (d1 S K T r sigma) * Dv)
        - K * Real.exp (-r * T) * (norm_pdf (d2 S K T r sigma) * (Dv - Real.sqrt T))) sigma := by
    have h1 := hN1.const_mul S
    have h2 := hN2.const_mul (K * Real.exp (-r * T))
    simpa only [call_price, mul_assoc] using h1.sub h2
  have hval : S * norm_pdf (d1 S K T r sigma) * Real.sqrt T
      = S * (norm_pdf (d1 S K T r sigma) * Dv)
        - K * Real.exp (-r * T) * (norm_pdf (d2 S K T r sigma) * (Dv - Real.sqrt T)) := by
    have hid := pdf_d2_identity S K T r sigma hS hK hT hsig
    linear_combination (Dv - Real.sqrt T) * hid
  rw [hval]
  exact hcp

theorem call_price_strictMonoOn (S K T r : ℝ) (hS : 0 < S) (hK : 0 < K) (hT : 0 < T) :
    StrictMonoOn (fun s => call_price S K T r s) (Ioi (0:ℝ)) := by
  apply strictMonoOn_of_deriv_pos (convex_Ioi 0)
  · intro s hs
    exact (call_price_hasDerivAt S K T r hS hK hT (mem_Ioi.mp hs)).continuousAt.continuousWithinAt
  · intro s hs
    rw [interior_Ioi] at hs
    rw [(call_price_hasDerivAt S K T r hS hK hT (mem_Ioi.mp hs)).deriv]
    exact mul_pos (mul_pos hS (norm_pdf_pos _)) (Real.sqrt_pos.mpr hT)

theorem put_price_parity (S K T r sigma : ℝ) :
    put_price S K T r sigma = call_price S K T r sigma - S + K * Real.exp (-r * T) := by
  rw [put_price, call_price, norm_cdf_neg_val, norm_cdf_neg_val]
  ring

end BSModel

namespace BSClaims

open BSModel

/-- Claim C8: monotonicity in volatility.  For non-degenerate inputs differing
only in `sigma`, with `0 < sigma1 <= sigma2`, the price returned by
`_black_scholes` at `sigma2` is at least the price at `sigma1`, for both the
call and the put branch. -/
theorem claim_C8_price_monotone_sigma (S K T r sigma1 sigma2 : ℝ) (is_call : Bool)
    (hS : 0 < S) (hK : 0 < K) (hT : 0 < T) (h1 : 0 < sigma1) (h12 : sigma1 ≤ sigma2) :
    (_black_scholes S K T r sigma1 is_call).price
      ≤ (_black_scholes S K T r sigma2 is_call).price := by
  have h2 : 0 < sigma2 := lt_of_lt_of_le h1 h12
  have hg1 := bs_guard_neg hS hK hT h1
  have hg2 := bs_guard_neg hS hK hT h2
  have hcall : call_price S K T r sigma1 ≤ call_price S K T r sigma2 := by
    rcases eq_or_lt_of_le h12 with rfl | hlt
    · exact le_rfl
    · exact (call_price_strictMonoOn S K T r hS hK hT (mem_Ioi.mpr h1)
        (mem_Ioi.mpr h2) hlt).le
  cases is_call
  · rw [bs_put_fields S K T r sigma1 hg1, bs_put_fields S K T r sigma2 hg2]
    show put_price S K T r sigma1 ≤ put_price S K T r sigma2
    rw [put_price_parity, put_price_parity]
    linarith
  · rw [bs_call_fields S K T r sigma1 hg1, bs_call_fields S K T r sigma2 hg2]
    exact hcall

/-- Witness for C8: at `S=100, K=100, T=1, r=0.05`, raising `sigma` from
`0.1` to `0.2` does not decrease the call price. -/
theorem claim_C8_witness :
    (_black_scholes 100 100 1 0.05 0.1 true).price
      ≤ (_black_scholes 100 100 1 0.05 0.2 true).price :=
  claim_C8_price_monotone_sigma 100 100 1 0.05 0.1 0.2 true (by norm_num) (by norm_num)
    (by norm_num) (by norm_num) (by norm_num)

end BSClaims

namespace BSModel

theorem norm_cdf_zero : norm_cdf 0 = 1 / 2 := by
  have h := norm_cdf_add_neg 0
  rw [neg_zero] at h
  linarith

theorem norm_cdf_eq_add_integral (x : ℝ) :
    norm_cdf x = norm_cdf 0 + ∫ t in (0:ℝ)..x, norm_pdf t := by
  have h := intervalIntegral.integral_Iic_sub_Iic (μ := volume) (f := norm_pdf)
    integrable_norm_pdf.integrableOn integrable_norm_pdf.integrableOn (a := 0) (b := x)
  rw [norm_cdf, norm_cdf]
  linarith [h]

theorem norm_cdf_eq_half_add (x : ℝ) :
    norm_cdf x = 1 / 2 + (∫ t in (0:ℝ)..x, Real.exp (-t ^ 2 / 2)) / Real.sqrt (2 * Real.pi) := by
  rw [norm_cdf_eq_add_integral, norm_cdf_zero]
  congr 1
  simp only [norm_pdf]
  exact intervalIntegral.integral_div _ _

theorem exp_taylor_bound {t : ℝ} (ht : |t| ≤ 0.35) :
    |Real.exp (-t ^ 2 / 2) - (1 - t ^ 2 / 2 + t ^ 4 / 8 - t ^ 6 / 48)| ≤ 0.00000074 := by
  have ht2 : t ^ 2 ≤ 0.1225 := by
    have h1 : t ^ 2 = |t| ^ 2 := (sq_abs t).symm
    rw [h1]
    nlinarith [abs_nonneg t]
  have hy : |(-t ^ 2 / 2 : ℝ)| ≤ 1 := by
    rw [abs_le]
    constructor <;> nlinarith [sq_nonneg t]
  have h := Real.exp_bound hy (n := 4) (by norm_num)
  have hsum : (∑ m ∈ Finset.range 4, (-t ^ 2 / 2) ^ m / m.factorial : ℝ)
      = 1 - t ^ 2 / 2 + t ^ 4 / 8 - t ^ 6 / 48 := by
    simp [Finset.sum_range_succ, Nat.factorial]
    ring
  rw [hsum] at h
  refine h.trans ?_
  have habs : |(-t ^ 2 / 2 : ℝ)| = t ^ 2 / 2 := by
    rw [abs_of_nonpos (by nlinarith [sq_nonneg t] : (-t ^ 2 / 2 : ℝ) ≤ 0)]
    ring
  rw [habs]
  have hp : (t ^ 2 / 2) ^ 4 ≤ (0.1225 / 2) ^ 4 :=
    pow_le_pow_left₀ (by positivity) (by linarith) 4
  norm_num [Nat.factorial] at hp ⊢
  nlinarith [hp]

theorem poly_antideriv (c x : ℝ) :
    (∫ t in (0:ℝ)..x, (1 - t ^ 2 / 2 + t ^ 4 / 8 - t ^ 6 / 48 + c))
      = x - x ^ 3 / 6 + x ^ 5 / 40 - x ^ 7 / 336 + c * x := by
  have hcont : Continuous fun t : ℝ => 1 - t ^ 2 / 2 + t ^ 4 / 8 - t ^ 6 / 48 + c := by
    fun_prop
  have hder : ∀ u : ℝ, HasDerivAt
      (fun v : ℝ => v - v ^ 3 / 6 + v ^ 5 / 40 - v ^ 7 / 336 + c * v)
      (1 - u ^ 2 / 2 + u ^ 4 / 8 - u ^ 6 / 48 + c) u := by
    intro u
    have h1 := hasDerivAt_id u
    have h3 := (hasDerivAt_pow 3 u).div_const 6
    have h5 := (hasDerivAt_pow 5 u).div_const 40
    have h7 := (hasDerivAt_pow 7 u).div_const 336
    have hc := (hasDerivAt_id u).const_mul c
    have hall := (((h1.sub h3).add h5).sub h7).add hc
    convert hall using 1
    push_cast
    ring
  rw [intervalIntegral.integral_eq_sub_of_hasDerivAt (fun u _ => hder u)
    (hcont.intervalIntegrable 0 x)]
  ring

theorem exp_integral_bounds {x : ℝ} (hx0 : 0 ≤ x) (hx : x ≤ 0.35) :
    x - x ^ 3 / 6 + x ^ 5 / 40 - x ^ 7 / 336 - 0.00000074 * x
      ≤ (∫ t in (0:ℝ)..x, Real.exp (-t ^ 2 / 2)) ∧
    (∫ t in (0:ℝ)..x, Real.exp (-t ^ 2 / 2))
      ≤ x - x ^ 3 / 6 + x ^ 5 / 40 - x ^ 7 / 336 + 0.00000074 * x := by
  have hcexp : Continuous fun t : ℝ => Real.exp (-t ^ 2 / 2) := by fun_prop
  have hcpol : ∀ c : ℝ, Continuous fun t : ℝ => 1 - t ^ 2 / 2 + t ^ 4 / 8 - t ^ 6 / 48 + c :=
    fun c => by fun_prop
  have hbound : ∀ t ∈ Icc (0:ℝ) x, |t| ≤ 0.35 := by
    intro t htm
    rw [abs_le]
    exact ⟨by linarith [htm.1], by linarith [htm.2]⟩
  constructor
  · have hmono := intervalIntegral.integral_mono_on (μ := volume) hx0
      (((hcpol (-0.00000074)).intervalIntegrable 0 x)) (hcexp.intervalIntegrable 0 x)
      (fun t htm => by
        have hb := exp_taylor_bound (hbound t htm)
        rw [abs_le] at hb
        linarith [hb.1])
    calc x - x ^ 3 / 6 + x ^ 5 / 40 - x ^ 7 / 336 - 0.00000074 * x
        = x - x ^ 3 / 6 + x ^ 5 / 40 - x ^ 7 / 336 + (-0.00000074) * x := by ring
      _ = ∫ t in (0:ℝ)..x, (1 - t ^ 2 / 2 + t ^ 4 / 8 - t ^ 6 / 48 + (-0.00000074)) :=
          (poly_antideriv _ _).symm
      _ ≤ _ := hmono
  · have hmono := intervalIntegral.integral_mono_on (μ := volume) hx0
      (hcexp.intervalIntegrable 0 x) (((hcpol 0.00000074).intervalIntegrable 0 x))
      (fun t htm => by
        have hb := exp_taylor_bound (hbound t htm)
        rw [abs_le] at hb
        linarith [hb.2])
    calc (∫ t in (0:ℝ)..x, Real.exp (-t ^ 2 / 2))
        ≤ ∫ t in (0:ℝ)..x, (1 - t ^ 2 / 2 + t ^ 4 / 8 - t ^ 6 / 48 + 0.00000074) := hmono
      _ = x - x ^ 3 / 6 + x ^ 5 / 40 - x ^ 7 / 336 + 0.00000074 * x := poly_antideriv _ _

end BSModel

namespace BSModel

theorem sqrt_two_pi_bounds :
    (2.506628:ℝ) < Real.sqrt (2 * Real.pi) ∧ Real.sqrt (2 * Real.pi) < 2.506629 := by
  constructor
  · rw [show (2.506628:ℝ) = Real.sqrt (2.506628 ^ 2) from (Real.sqrt_sq (by norm_num)).symm]
    apply Real.sqrt_lt_sqrt (by positivity)
    nlinarith [Real.pi_gt_d6]
  · rw [show (2.506629:ℝ) = Real.sqrt (2.506629 ^ 2) from (Real.sqrt_sq (by norm_num)).symm]
    apply Real.sqrt_lt_sqrt (by positivity)
    nlinarith [Real.pi_lt_d6]

theorem exp_neg_005_bounds :
    (0.9512288:ℝ) < Real.exp (-0.05 * 1) ∧ Real.exp (-0.05 * 1) < 0.9512295 := by
  have harg : (-0.05 * 1 : ℝ) = -(1 / 20) := by norm_num
  rw [harg]
  have hy : |(-(1 / 20) : ℝ)| ≤ 1 := by rw [abs_le]; constructor <;> norm_num
  have h := Real.exp_bound hy (n := 4) (by norm_num)
  have hsum : (∑ m ∈ Finset.range 4, (-(1 / 20) : ℝ) ^ m / m.factorial) = 45659 / 48000 := by
    simp [Finset.sum_range_succ, Nat.factorial]
    norm_num
  rw [hsum] at h
  have habs : |(-(1 / 20) : ℝ)| = 1 / 20 := by
    rw [abs_of_nonpos (by norm_num)]
    norm_num
  rw [habs, abs_le] at h
  have h1 := h.1
  have h2 := h.2
  norm_num [Nat.factorial] at h1 h2
  constructor <;> linarith [h1, h2]

theorem norm_cdf_35_bounds :
    (0.6368304:ℝ) < norm_cdf 0.35 ∧ norm_cdf 0.35 < 0.6368308 := by
  have hG := exp_integral_bounds (x := 0.35) (by norm_num) (by norm_num)
  have hGlo : (0.34298329:ℝ) < ∫ t in (0:ℝ)..0.35, Real.exp (-t ^ 2 / 2) := by
    refine lt_of_lt_of_le ?_ hG.1
    norm_num
  have hGhi : (∫ t in (0:ℝ)..0.35, Real.exp (-t ^ 2 / 2)) < 0.34298382 := by
    refine lt_of_le_of_lt hG.2 ?_
    norm_num
  have hs := sqrt_two_pi_bounds
  have hspos : (0:ℝ) < Real.sqrt (2 * Real.pi) := by linarith [hs.1]
  rw [norm_cdf_eq_half_add]
  constructor
  · have hq : (0.34298329:ℝ) / 2.506629
        < (∫ t in (0:ℝ)..0.35, Real.exp (-t ^ 2 / 2)) / Real.sqrt (2 * Real.pi) := by
      rw [div_lt_div_iff₀ (by norm_num) hspos]
      nlinarith [hs.2, hGlo]
    have hnum : (0.6368304:ℝ) < 1 / 2 + 0.34298329 / 2.506629 := by norm_num
    linarith
  · have hq : (∫ t in (0:ℝ)..0.35, Real.exp (-t ^ 2 / 2)) / Real.sqrt (2 * Real.pi)
        < (0.34298382:ℝ) / 2.506628 := by
      rw [div_lt_div_iff₀ hspos (by norm_num)]
      nlinarith [hs.1, hGhi]
    have hnum : (1:ℝ) / 2 + 0.34298382 / 2.506628 < 0.6368308 := by norm_num
    linarith

theorem norm_cdf_15_bounds :
    (0.5596175:ℝ) < norm_cdf 0.15 ∧ norm_cdf 0.15 < 0.5596179 := by
  have hG := exp_integral_bounds (x := 0.15) (by norm_num) (by norm_num)
  have hGlo : (0.14943928:ℝ) < ∫ t in (0:ℝ)..0.15, Real.exp (-t ^ 2 / 2) := by
    refine lt_of_lt_of_le ?_ hG.1
    norm_num
  have hGhi : (∫ t in (0:ℝ)..0.15, Real.exp (-t ^ 2 / 2)) < 0.14943951 := by
    refine lt_of_le_of_lt hG.2 ?_
    norm_num
  have hs := sqrt_two_pi_bounds
  have hspos : (0:ℝ) < Real.sqrt (2 * Real.pi) := by linarith [hs.1]
  rw [norm_cdf_eq_half_add]
  constructor
  · have hq : (0.14943928:ℝ) / 2.506629
        < (∫ t in (0:ℝ)..0.15, Real.exp (-t ^ 2 / 2)) / Real.sqrt (2 * Real.pi) := by
      rw [div_lt_div_iff₀ (by norm_num) hspos]
      nlinarith [hs.2, hGlo]
    have hnum : (0.5596175:ℝ) < 1 / 2 + 0.14943928 / 2.506629 := by norm_num
    linarith
  · have hq : (∫ t in (0:ℝ)..0.15, Real.exp (-t ^ 2 / 2)) / Real.sqrt (2 * Real.pi)
        < (0.14943951:ℝ) / 2.506628 := by
      rw [div_lt_div_iff₀ hspos (by norm_num)]
      nlinarith [hs.1, hGhi]
    have hnum : (1:ℝ) / 2 + 0.14943951 / 2.506628 < 0.5596179 := by norm_num
    linarith

theorem d1_concrete : d1 100 100 1 0.05 0.2 = 0.35 := by
  rw [d1, show (100:ℝ) / 100 = 1 by norm_num, Real.log_one, Real.sqrt_one]
  norm_num

theorem d2_concrete : d2 100 100 1 0.05 0.2 = 0.15 := by
  rw [d2, d1_concrete, Real.sqrt_one]
  norm_num

end BSModel

namespace BSClaims

open BSModel

/-- Claim C9: concrete scenario `S=100, K=100, T=1, r=0.05, sigma=0.2`: the
call branch returns price within `10^-4` of `10.4506` and delta within `10^-4`
of `0.6368`; the put branch returns price within `10^-4` of `5.5735` and delta
within `10^-4` of `-0.3632`. -/
theorem claim_C9_concrete_scenario :
    |(_black_scholes 100 100 1 0.05 0.2 true).price - 10.4506| < 0.0001 ∧
    |(_black_scholes 100 100 1 0.05 0.2 true).delta - 0.6368| < 0.0001 ∧
    |(_black_scholes 100 100 1 0.05 0.2 false).price - 5.5735| < 0.0001 ∧
    |(_black_scholes 100 100 1 0.05 0.2 false).delta - (-0.3632)| < 0.0001 := by
  have hg : ¬((1:ℝ) ≤ 0 ∨ (0.2:ℝ) ≤ 0 ∨ (100:ℝ) ≤ 0 ∨ (100:ℝ) ≤ 0) :=
    bs_guard_neg (by norm_num) (by norm_num) (by norm_num) (by norm_num)
  rw [bs_call_fields 100 100 1 0.05 0.2 hg, bs_put_fields 100 100 1 0.05 0.2 hg]
  dsimp only
  rw [d1_concrete, d2_concrete, norm_cdf_neg_val 0.35, norm_cdf_neg_val 0.15]
  have hN35 := norm_cdf_35_bounds
  have hN15 := norm_cdf_15_bounds
  have hE := exp_neg_005_bounds
  have hprod_lo : (0.9512288:ℝ) * 0.5596175 < Real.exp (-0.05 * 1) * norm_cdf 0.15 :=
    mul_lt_mul'' hE.1 hN15.1 (by norm_num) (by norm_num)
  have hprod_hi : Real.exp (-0.05 * 1) * norm_cdf 0.15 < (0.9512295:ℝ) * 0.5596179 :=
    mul_lt_mul'' hE.2 hN15.2 (by linarith [hE.1]) (by linarith [hN15.1])
  have hq_lo : (0.9512288:ℝ) * (1 - 0.5596179)
      < Real.exp (-0.05 * 1) * (1 - norm_cdf 0.15) :=
    mul_lt_mul'' hE.1 (by linarith [hN15.2]) (by norm_num) (by norm_num)
  have hq_hi : Real.exp (-0.05 * 1) * (1 - norm_cdf 0.15)
      < (0.9512295:ℝ) * (1 - 0.5596175) :=
    mul_lt_mul'' hE.2 (by linarith [hN15.1]) (by linarith [hE.1]) (by linarith [hN15.2])
  refine ⟨?_, ?_, ?_, ?_⟩ <;> rw [abs_lt] <;>
    constructor <;>
    linarith [hN35.1, hN35.2, hN15.1, hN15.2, hE.1, hE.2, hprod_lo, hprod_hi, hq_lo, hq_hi]

end BSClaims
